import Mathlib

/-!
A read/write mutex guarding a shared slice: `example5`

Verification of `concurrency/data_race/example5/example5.go`.

The program is embedded as a transition system.  The state holds the three
package-level variables (`data`, `rwMutex`, `readCount`), the `sync.WaitGroup`
local to `main`, the text written to standard output, and one program counter
(plus locals) per goroutine.  A step is one statement of one goroutine; the
scheduler is a list of goroutine names, so every interleaving is a schedule.

The standard-library primitives are modelled by their documented contracts:

* `sync.RWMutex`: `Lock` blocks while the lock is held for reading or
  writing; once a `Lock` call is blocked, further `RLock` calls block until
  that writer has acquired and released the lock; `Unlock`/`RUnlock` of a
  lock that is not held is a fatal error.
* `sync/atomic`: `AddInt64` and `LoadInt64` are single indivisible steps on a
  64-bit two's-complement integer.
* `sync.WaitGroup`: `Add`/`Done` change a counter and panic when it becomes
  negative; `Wait` blocks until the counter is zero.
* `time.Sleep` has no effect on the state; it is a step of its own so that
  other goroutines can run before and after it.
-/

namespace Example5

/-! ## Data model -/

/-- State of `sync.RWMutex`: whether a writer holds it, whether a `Lock`
call is blocked waiting for readers to leave, and the number of goroutines
holding it for reading. -/
structure RWMutex where
  writerHeld : Bool
  writerWaiting : Bool
  readerCount : Nat
deriving DecidableEq, Repr

/-- Program counter of `main` (lines 28-54). -/
inductive MainPC where
  | wgAdd          -- about to run `wg.Add(1)`
  | goWriter       -- about to run `go func() { ... }()` for the writer
  | goReaders      -- in `for i := 0; i < 8; i++`, about to run `go func(id int)`
  | wgWait         -- about to return from `wg.Wait()`
  | printComplete  -- about to run `fmt.Println("Program Complete")`
  | ret            -- about to return from `main`
  | exited         -- `main` has returned: the process is gone
deriving DecidableEq, Repr

/-- Program counter of the write goroutine (lines 34-40 and 57-72). -/
inductive WriterPC where
  | notStarted  -- the `go` statement has not run yet
  | sleep       -- in the loop body, about to run `time.Sleep`
  | lock        -- in `writer(i)`, about to call `rwMutex.Lock()`
  | lockWait    -- inside `rwMutex.Lock()`, waiting for the readers to leave
  | load        -- about to run `rc := atomic.LoadInt64(&readCount)`
  | print       -- about to run `fmt.Printf("----> Performing write ...", rc)`
  | append      -- about to run `data = append(data, fmt.Sprintf(...))`
  | unlock      -- about to run `rwMutex.Unlock()` and return from `writer`
  | wgDone      -- the loop is over, about to run `wg.Done()`
  | exited      -- the goroutine has returned
deriving DecidableEq, Repr

/-- Program counter of a reader goroutine (lines 44-48 and 75-92). -/
inductive ReaderPC where
  | rlock    -- about to call `rwMutex.RLock()`
  | add      -- about to run `rc := atomic.AddInt64(&readCount, 1)`
  | sleep    -- about to run `time.Sleep`
  | print    -- about to run `fmt.Printf("%d: Performing Read ...", id, len(data), rc)`
  | dec      -- about to run `atomic.AddInt64(&readCount, -1)`
  | runlock  -- about to run `rwMutex.RUnlock()` and return from `reader`
deriving DecidableEq, Repr

/-- The write goroutine: program counter, loop variable `i`, and the local
`rc` of `writer`. -/
structure Writer where
  pc : WriterPC
  i : Nat
  rc : Int
deriving DecidableEq, Repr

/-- A reader goroutine: its argument `id`, program counter, and the local
`rc` of `reader`. -/
structure Reader where
  id : Nat
  pc : ReaderPC
  rc : Int
deriving DecidableEq, Repr

/-- One line written to standard output. -/
inductive Line where
  | write (rc : Int)
  | read (id : Nat) (len : Nat) (rc : Int)
  | complete
deriving DecidableEq, Repr

/-- The text of an output line, as produced by the format strings of
`writer`, `reader` and `main`. -/
def Line.render : Line → String
  | .write rc => "----> Performing write: Read Count[" ++ toString rc ++ "]"
  | .read id len rc =>
      toString id ++ ": Performing Read: Length[" ++ toString len ++ "] Read Count["
        ++ toString rc ++ "]"
  | .complete => "Program Complete"

/-- The whole program state. -/
structure State where
  data : List String
  rwMutex : RWMutex
  readCount : Int
  wg : Int
  mainPC : MainPC
  mainI : Nat
  writer : Writer
  readers : List Reader
  out : List Line
deriving DecidableEq, Repr

/-- The goroutines of the program. -/
inductive Task where
  | main
  | writer
  | reader (k : Nat)
deriving DecidableEq, Repr

/-- Result of asking a goroutine to take its next step. -/
inductive Outcome where
  | next (s : State)
  | blocked
  | fault
deriving DecidableEq, Repr

/-! ## Operations -/

/-- Reduction of an integer to the range of `int64` (two's complement). -/
def int64 (x : Int) : Int :=
  (x + 9223372036854775808) % 18446744073709551616 - 9223372036854775808

/-- The new value stored (and returned) by `atomic.AddInt64(&v, delta)`. -/
def atomicAddInt64 (v delta : Int) : Int := int64 (v + delta)

/-- The string built by `fmt.Sprintf("String: %d", i)`. -/
def sprintfString (i : Int) : String := "String: " ++ toString i

/-- The state before `main` starts: all package-level variables hold their
zero values and no goroutine other than `main` exists. -/
def init : State where
  data := []
  rwMutex := { writerHeld := false, writerWaiting := false, readerCount := 0 }
  readCount := 0
  wg := 0
  mainPC := .wgAdd
  mainI := 0
  writer := { pc := .notStarted, i := 0, rc := 0 }
  readers := []
  out := []

/-- One step of `main`. -/
def stepMain (s : State) : Outcome :=
  match s.mainPC with
  | .wgAdd =>
      if s.wg + 1 < 0 then .fault
      else .next { s with wg := s.wg + 1, mainPC := .goWriter }
  | .goWriter =>
      .next { s with writer := { pc := .sleep, i := 0, rc := 0 },
                     mainPC := .goReaders, mainI := 0 }
  | .goReaders =>
      .next { s with readers := s.readers ++ [{ id := s.mainI, pc := .rlock, rc := 0 }],
                     mainI := s.mainI + 1,
                     mainPC := if s.mainI + 1 < 8 then .goReaders else .wgWait }
  | .wgWait =>
      if s.wg = 0 then .next { s with mainPC := .printComplete } else .blocked
  | .printComplete =>
      .next { s with out := s.out ++ [.complete], mainPC := .ret }
  | .ret => .next { s with mainPC := .exited }
  | .exited => .blocked

/-- One step of the write goroutine: the loop of lines 35-38 around the body
of `writer` (lines 57-72), then `wg.Done()`. -/
def stepWriter (s : State) : Outcome :=
  match s.writer.pc with
  | .notStarted => .blocked
  | .sleep => .next { s with writer := { s.writer with pc := .lock } }
  | .lock =>
      if s.rwMutex.writerHeld then .blocked
      else if s.rwMutex.readerCount = 0 then
        .next { s with rwMutex := { s.rwMutex with writerHeld := true },
                       writer := { s.writer with pc := .load } }
      else
        .next { s with rwMutex := { s.rwMutex with writerWaiting := true },
                       writer := { s.writer with pc := .lockWait } }
  | .lockWait =>
      if s.rwMutex.readerCount = 0 then
        .next { s with rwMutex := { s.rwMutex with writerHeld := true, writerWaiting := false },
                       writer := { s.writer with pc := .load } }
      else .blocked
  | .load => .next { s with writer := { s.writer with pc := .print, rc := s.readCount } }
  | .print =>
      .next { s with out := s.out ++ [.write s.writer.rc],
                     writer := { s.writer with pc := .append } }
  | .append =>
      .next { s with data := s.data ++ [sprintfString s.writer.i],
                     writer := { s.writer with pc := .unlock } }
  | .unlock =>
      if s.rwMutex.writerHeld then
        .next { s with rwMutex := { s.rwMutex with writerHeld := false },
                       writer := { s.writer with
                                     i := s.writer.i + 1,
                                     pc := if s.writer.i + 1 < 10 then .sleep else .wgDone } }
      else .fault
  | .wgDone =>
      if s.wg - 1 < 0 then .fault
      else .next { s with wg := s.wg - 1, writer := { s.writer with pc := .exited } }
  | .exited => .blocked

/-- One step of the reader goroutine with index `k`: the endless loop of
lines 45-47 around the body of `reader` (lines 75-92). -/
def stepReader (s : State) (k : Nat) : Outcome :=
  match s.readers[k]? with
  | none => .blocked
  | some r =>
    match r.pc with
    | .rlock =>
        if s.rwMutex.writerHeld || s.rwMutex.writerWaiting then .blocked
        else
          .next { s with rwMutex := { s.rwMutex with readerCount := s.rwMutex.readerCount + 1 },
                         readers := s.readers.set k { r with pc := .add } }
    | .add =>
        .next { s with readCount := atomicAddInt64 s.readCount 1,
                       readers := s.readers.set k
                         { r with pc := .sleep, rc := atomicAddInt64 s.readCount 1 } }
    | .sleep => .next { s with readers := s.readers.set k { r with pc := .print } }
    | .print =>
        .next { s with out := s.out ++ [.read r.id s.data.length r.rc],
                       readers := s.readers.set k { r with pc := .dec } }
    | .dec =>
        .next { s with readCount := atomicAddInt64 s.readCount (-1),
                       readers := s.readers.set k { r with pc := .runlock } }
    | .runlock =>
        if s.rwMutex.readerCount = 0 then .fault
        else
          .next { s with rwMutex := { s.rwMutex with readerCount := s.rwMutex.readerCount - 1 },
                         readers := s.readers.set k { r with pc := .rlock } }

/-- One step of the program: the goroutine `t` runs its next statement.
Nothing runs once `main` has returned. -/
def step (s : State) (t : Task) : Outcome :=
  if s.mainPC = .exited then .blocked
  else
    match t with
    | .main => stepMain s
    | .writer => stepWriter s
    | .reader k => stepReader s k

/-- Run a schedule: the listed goroutines take one step each, in order.  The
result is `none` when a listed goroutine cannot step (it is blocked, or the
step is a fault). -/
def run (s : State) : List Task → Option State
  | [] => some s
  | t :: ts =>
    match step s t with
    | .next s' => run s' ts
    | _ => none

/-- A state the program can be in: the result of some schedule from `init`. -/
def Reachable (s : State) : Prop := ∃ σ : List Task, run init σ = some s

/-! ## Auxiliary notions used in the statements -/

/-- Whether the writer at this program counter is inside its critical section:
between the return of `rwMutex.Lock()` and `rwMutex.Unlock()`. -/
def WriterPC.holds : WriterPC → Bool
  | .load | .print | .append | .unlock => true
  | _ => false

/-- Whether a reader at this program counter is inside its critical section:
between the return of `rwMutex.RLock()` and `rwMutex.RUnlock()`. -/
def ReaderPC.holds : ReaderPC → Bool
  | .rlock => false
  | _ => true

/-- Whether a reader at this program counter has run its
`atomic.AddInt64(&readCount, 1)` and not yet its `atomic.AddInt64(&readCount, -1)`. -/
def ReaderPC.counted : ReaderPC → Bool
  | .sleep | .print | .dec => true
  | _ => false

/-- Number of readers inside their critical section. -/
def numHolding (rs : List Reader) : Nat := rs.countP (fun r => r.pc.holds)

/-- Number of readers between their increment and their decrement of `readCount`. -/
def numCounted (rs : List Reader) : Nat := rs.countP (fun r => r.pc.counted)

/-- Number of reader goroutines `main` has started when it stands at `pc` with
loop variable `i`. -/
def MainPC.spawned (pc : MainPC) (i : Nat) : Nat :=
  match pc with
  | .wgAdd | .goWriter => 0
  | .goReaders => i
  | _ => 8

/-- The slice built by `n` calls `writer(0)`, ..., `writer(n - 1)`. -/
def expectedData (n : Nat) : List String :=
  (List.range n).map (fun (j : Nat) => sprintfString (j : Int))

/-- The inductive invariant of the program: the gate's bookkeeping agrees with
the program counters, `readCount` counts the readers between increment and
decrement, `main` has started the readers its loop variable says, `data` holds
what the completed writer calls appended, and the wait group and the output
agree with the progress of `main` and the writer. -/
structure Invariant (s : State) : Prop where
  held : s.rwMutex.writerHeld = s.writer.pc.holds
  waiting : s.rwMutex.writerWaiting = decide (s.writer.pc = .lockWait)
  rcount : s.rwMutex.readerCount = numHolding s.readers
  excl : s.rwMutex.writerHeld = true → s.rwMutex.readerCount = 0
  counter : s.readCount = (numCounted s.readers : Int)
  spawned : s.readers.length = s.mainPC.spawned s.mainI
  mainI : s.mainPC = .goReaders → s.mainI < 8
  ids : ∀ (k : Nat) (r : Reader), s.readers[k]? = some r → r.id = k
  rcs : ∀ (k : Nat) (r : Reader), s.readers[k]? = some r → r.pc = .sleep ∨ r.pc = .print → 1 ≤ r.rc ∧ r.rc ≤ 8
  wstart : s.writer.pc = .notStarted ↔ (s.mainPC = .wgAdd ∨ s.mainPC = .goWriter)
  wzero : s.writer.pc = .notStarted → s.writer.i = 0
  wloop : s.writer.pc ≠ .wgDone → s.writer.pc ≠ .exited → s.writer.i < 10
  wend : s.writer.pc = .wgDone ∨ s.writer.pc = .exited → s.writer.i = 10
  wdata : s.data = expectedData (s.writer.i + if s.writer.pc = .unlock then 1 else 0)
  wrc : s.writer.pc = .print → s.writer.rc = 0
  wlines : ∀ rc, Line.write rc ∈ s.out → rc = 0
  wgc : s.wg = if s.mainPC = .wgAdd ∨ s.writer.pc = .exited then 0 else 1
  after : s.mainPC = .printComplete ∨ s.mainPC = .ret ∨ s.mainPC = .exited → s.writer.pc = .exited
  complete : Line.complete ∈ s.out ↔ (s.mainPC = .ret ∨ s.mainPC = .exited)

/-- How a step uses the slice `data`. -/
inductive Access where
  | none
  | read
  | write
deriving DecidableEq, Repr

/-- The use that the next statement of goroutine `t` makes of `data`:
`data = append(data, ...)` in `writer` reads and writes it, `len(data)` in the
`Printf` of `reader` reads it, no other statement mentions it. -/
def access (s : State) : Task → Access
  | .main => .none
  | .writer => if s.writer.pc = .append then .write else .none
  | .reader k =>
    match s.readers[k]? with
    | some r => if r.pc = .print then .read else .none
    | none => .none

/-- Replace `data` in the state an outcome carries. -/
def Outcome.setData (o : Outcome) (d : List String) : Outcome :=
  match o with
  | .next s => .next { s with data := d }
  | .blocked => .blocked
  | .fault => .fault

/-- Change of `readCount` made by the reader statement at a program counter. -/
def ReaderPC.delta : ReaderPC → Int
  | .add => 1
  | .dec => -1
  | _ => 0

/-- The program counter a reader moves to after the statement at `pc`. -/
def ReaderPC.succ : ReaderPC → ReaderPC
  | .rlock => .add
  | .add => .sleep
  | .sleep => .print
  | .print => .dec
  | .dec => .runlock
  | .runlock => .rlock

/-- Number of further statements a reader at `pc` can run and still hold the
gate in shared mode afterwards. -/
def ReaderPC.remaining : ReaderPC → Nat
  | .rlock => 0
  | .add => 4
  | .sleep => 3
  | .print => 2
  | .dec => 1
  | .runlock => 0

/-- Arguments of the calls `writer(i)` begun along a schedule, in order: a
call begins when the write goroutine runs the first statement of `writer`. -/
def writerCalls (s : State) : List Task → List Nat
  | [] => []
  | t :: ts =>
    match step s t with
    | .next s' =>
      (if t = .writer ∧ s.writer.pc = .lock then [s.writer.i] else []) ++ writerCalls s' ts
    | _ => []

/-- Number of calls to `writer` that return along a schedule: a call returns
when the write goroutine runs `rwMutex.Unlock()`. -/
def writerReturns (s : State) : List Task → Nat
  | [] => 0
  | t :: ts =>
    match step s t with
    | .next s' =>
      (if t = .writer ∧ s.writer.pc = .unlock then 1 else 0) + writerReturns s' ts
    | _ => 0

/-- Number of calls to `writer` begun so far, read off the writer's state. -/
def callsBegun (w : Writer) : Nat :=
  match w.pc with
  | .lockWait | .load | .print | .append | .unlock => w.i + 1
  | _ => w.i

/-- An upper bound on the number of statements the write goroutine has
still to run. -/
def writerDist (w : Writer) : Nat :=
  match w.pc with
  | .notStarted => 71
  | .sleep => (10 - w.i - 1) * 7 + 8
  | .lock => (10 - w.i - 1) * 7 + 7
  | .lockWait => (10 - w.i - 1) * 7 + 6
  | .load => (10 - w.i - 1) * 7 + 5
  | .print => (10 - w.i - 1) * 7 + 4
  | .append => (10 - w.i - 1) * 7 + 3
  | .unlock => (10 - w.i - 1) * 7 + 2
  | .wgDone => 1
  | .exited => 0

/-- Number of statements `main` has still to run. -/
def mainDist (pc : MainPC) (i : Nat) : Nat :=
  match pc with
  | .wgAdd => 14
  | .goWriter => 13
  | .goReaders => (8 - i) + 4
  | .wgWait => 3
  | .printComplete => 2
  | .ret => 1
  | .exited => 0

/-- Number of statements a reader at `pc` has still to run before it has
released the gate. -/
def ReaderPC.toRelease : ReaderPC → Nat
  | .rlock => 0
  | .add => 5
  | .sleep => 4
  | .print => 3
  | .dec => 2
  | .runlock => 1

/-- Total number of statements the readers have to run to release the gate. -/
def readersDist (rs : List Reader) : Nat := (rs.map (fun r => r.pc.toRelease)).sum

/-- A measure that some enabled step decreases as long as `main` has not
returned. -/
def rank (s : State) : Nat :=
  mainDist s.mainPC s.mainI + writerDist s.writer + readersDist s.readers

/-! ## Concrete schedules and states -/

/-- A schedule in which reader 0 increments `readCount`, then reader 1 does
the same while reader 0 sleeps, and reader 0 wakes up ready to print. -/
def staleSchedule : List Task :=
  [.main, .main, .main, .main,
   .reader 0, .reader 0,
   .reader 1, .reader 1,
   .reader 0]

/-- The six statements of one uncontended pass of the writer's loop body. -/
def writerPass : List Task := [.writer, .writer, .writer, .writer, .writer, .writer]

/-- A schedule in which two readers hold the gate in shared mode and the
writer, having called `Lock`, waits for them. -/
def contendedSchedule : List Task :=
  [.main, .main, .main, .main,
   .writer,
   .reader 0, .reader 0,
   .reader 1,
   .writer,
   .reader 1, .reader 0]

/-- The state reached by `contendedSchedule`. -/
def contendedState : State := (run init contendedSchedule).getD init

/-- A schedule after which the writer holds the gate and is about to append. -/
def appendSchedule : List Task :=
  [.main, .main, .main, .reader 0, .reader 0, .reader 0, .reader 0, .reader 0, .reader 0,
   .writer, .writer, .writer, .writer]

/-- The state reached by `appendSchedule`. -/
def appendState : State := (run init appendSchedule).getD init

/-- The schedule `appendSchedule` followed by the writer's append. -/
def writingSchedule : List Task := appendSchedule ++ [.writer]

/-- The state reached by `writingSchedule`. -/
def writingState : State := (run init writingSchedule).getD init

/-- A schedule that runs the program to completion without any reader step. -/
def fullSchedule : List Task :=
  [.main, .main] ++ List.replicate 8 Task.main ++ (List.replicate 10 writerPass).flatten
    ++ [.writer, .main, .main, .main]

/-- The state reached by `fullSchedule`. -/
def finalState : State := (run init fullSchedule).getD init

/-- A schedule after which one write is stored and reader 0 is about to call
`RLock`. -/
def snapStart : List Task := [.main, .main, .main] ++ writerPass

/-- The state in which reader 0 is granted `RLock`. -/
def snapGrant : State := (run init snapStart).getD init

/-- The state right after the grant. -/
def snapHeld : State := (run snapGrant [.reader 0]).getD init

/-- The state three reader statements and two writer statements later. -/
def snapLate : State :=
  (run snapHeld ([.reader 0, .writer, .reader 0] ++ .reader 0 :: [.writer])).getD init

/-- The state in which reader 0 is about to increment `readCount`. -/
def incrBefore : State := (run init [.main, .main, .main, .main, .reader 0]).getD init

/-- The state right after the increment of reader 0. -/
def incrAfter : State := (run incrBefore [.reader 0]).getD init

/-- The state in which reader 0 is about to print, reader 1 having
incremented `readCount` meanwhile. -/
def incrPrint : State := (run incrAfter [.reader 1, .reader 1, .reader 0]).getD init

/-- The state right after reader 0 has printed. -/
def incrPrinted : State := (run incrPrint [.reader 0]).getD init

/-! ## Supporting lemmas -/

/-- The invariant holds before `main` starts. -/
theorem inv_init : Invariant init := by
  constructor <;> simp [init, WriterPC.holds, numHolding, numCounted, MainPC.spawned, expectedData]

theorem expectedData_succ (n : Nat) : expectedData (n + 1) = expectedData n ++ [sprintfString n] := by
  simp [expectedData, List.range_succ]

theorem numHolding_spawn (rs : List Reader) (i : Nat) (rc : Int) :
    numHolding (rs ++ [{ id := i, pc := .rlock, rc := rc }]) = numHolding rs := by
  simp [numHolding, List.countP_append, ReaderPC.holds]

theorem numCounted_spawn (rs : List Reader) (i : Nat) (rc : Int) :
    numCounted (rs ++ [{ id := i, pc := .rlock, rc := rc }]) = numCounted rs := by
  simp [numCounted, List.countP_append, ReaderPC.counted]

theorem getElem?_spawn {rs : List Reader} {r0 r : Reader} {k : Nat}
    (h : (rs ++ [r0])[k]? = some r) : rs[k]? = some r ∨ (k = rs.length ∧ r = r0) := by
  rw [List.getElem?_append] at h
  split at h
  · exact Or.inl h
  · rename_i hk
    have hk2 : k - rs.length = 0 := by
      by_contra hne
      obtain ⟨m, hm⟩ := Nat.exists_eq_succ_of_ne_zero hne
      rw [hm] at h
      simp at h
    rw [hk2] at h
    simp at h
    exact Or.inr ⟨by omega, h.symm⟩

theorem getElem?_set_cases {rs : List Reader} {r0 r : Reader} {k j : Nat}
    (h : (rs.set k r0)[j]? = some r) : (j = k ∧ r = r0) ∨ (j ≠ k ∧ rs[j]? = some r) := by
  rw [List.getElem?_set] at h
  split at h
  · rename_i hkj
    split at h
    · exact Or.inl ⟨hkj.symm, by simpa using h.symm⟩
    · simp at h
  · rename_i hkj
    exact Or.inr ⟨fun e => hkj e.symm, h⟩

theorem countP_set_add (p : Reader → Bool) {rs : List Reader} {r r0 : Reader} {k : Nat}
    (h : rs[k]? = some r) :
    (rs.set k r0).countP p + (if p r then 1 else 0) = rs.countP p + (if p r0 then 1 else 0) := by
  obtain ⟨hk, hr⟩ := List.getElem?_eq_some_iff.mp h
  have hle := List.boole_getElem_le_countP p rs k hk
  rw [List.countP_set p rs k r0 hk]
  rw [hr] at hle ⊢
  omega

/-- Every step of `main` preserves the invariant. -/
theorem inv_stepMain {s s' : State} (h : Invariant s) (hs : stepMain s = .next s') : Invariant s' := by
  have ⟨h1, h2, h3, h4, h5, h6, h7, h8, h9, h10, h10z, h11, h12, h13, h14, h15, h16, h17, h18⟩ := h
  unfold stepMain at hs
  cases hpc : s.mainPC <;> simp only [hpc] at hs h6 h7 h16 h17 h18
  all_goals (try split at hs)
  all_goals (try (simp only [Outcome.next.injEq, reduceCtorEq] at hs))
  all_goals (try (subst hs; constructor <;> dsimp only <;> try assumption))
  all_goals (try (simp only [numHolding_spawn, numCounted_spawn]; assumption))
  all_goals (try (simp [hpc, MainPC.spawned, *] at *; done))
  all_goals (try (simp [hpc, MainPC.spawned] at *; omega))
  case wgAdd.isFalse.wgc =>
    have : s.writer.pc ≠ .exited := by
      rw [h10.mpr (Or.inl hpc)]; simp
    simp [this] at h16 ⊢
    omega
  case goWriter.held => have := h10.mpr (Or.inr hpc); rw [this] at h1; simpa [WriterPC.holds] using h1
  case goWriter.waiting => have := h10.mpr (Or.inr hpc); rw [this] at h2; simpa using h2
  case goWriter.wdata =>
    have hw := h10.mpr (Or.inr hpc)
    have hz := h10z hw
    rw [h13, hw, hz]
    simp
  case goWriter.wgc =>
    have := h10.mpr (Or.inr hpc)
    simp [this] at h16 ⊢
    exact h16
  case goReaders.isTrue.ids | goReaders.isFalse.ids =>
    intro k r hk
    rcases getElem?_spawn hk with h | ⟨h, rfl⟩
    · exact h8 k r h
    · simp [h, MainPC.spawned] at h6 ⊢; omega
  case goReaders.isTrue.rcs | goReaders.isFalse.rcs =>
    intro k r hk
    rcases getElem?_spawn hk with h | ⟨h, rfl⟩
    · exact h9 k r h
    · simp
  case wgWait.isTrue.after =>
    rename_i hwg
    intro _
    by_contra hne
    simp [hne, hwg] at h16
  case printComplete.wlines =>
    intro rc hrc
    simp at hrc
    exact h15 rc hrc

theorem numCounted_le_numHolding (rs : List Reader) : numCounted rs ≤ numHolding rs := by
  unfold numCounted numHolding
  apply List.countP_mono_left
  intro r _ hr
  cases hp : r.pc <;> simp [hp, ReaderPC.counted, ReaderPC.holds] at hr ⊢

set_option maxHeartbeats 1600000 in
/-- Every step of the writer preserves the invariant. -/
theorem inv_stepWriter {s s' : State} (h : Invariant s) (hs : stepWriter s = .next s') : Invariant s' := by
  have ⟨h1, h2, h3, h4, h5, h6, h7, h8, h9, h10, h10z, h11, h12, h13, h14, h15, h16, h17, h18⟩ := h
  unfold stepWriter at hs
  cases hpc : s.writer.pc <;> simp only [hpc] at hs h1 h2 h10 h10z h11 h12 h13 h14 h16 h17
  all_goals (try split at hs)
  all_goals (try split at hs)
  all_goals (try (simp only [Outcome.next.injEq, reduceCtorEq] at hs))
  all_goals (try (subst hs; constructor <;> dsimp only <;> try assumption))
  all_goals (try (simp [WriterPC.holds] at h1 h2 h10 h10z h11 h12 h14 h16 h17 ⊢; done))
  all_goals (try (simp [WriterPC.holds] at h1 h2 h10 h10z h11 h12 h14 h16 h17 ⊢; omega))
  all_goals (try (simp [WriterPC.holds] at h1 h2 h10 h10z h11 h12 h14 h16 h17 ⊢; tauto))
  case load.wrc =>
    intro _
    have hz := h4 (by simpa [WriterPC.holds] using h1)
    have hle := numCounted_le_numHolding s.readers
    rw [h5]
    omega
  case print.wlines =>
    intro rc hrc
    simp only [List.mem_append, List.mem_singleton, Line.write.injEq] at hrc
    rcases hrc with hrc | hrc
    · exact h15 rc hrc
    · rw [hrc]; exact h14 trivial
  case append.wdata =>
    simp only [if_true, expectedData_succ]
    rw [h13]
    simp

theorem numCounted_le_length (rs : List Reader) : numCounted rs ≤ rs.length :=
  List.countP_le_length _

theorem spawned_le (pc : MainPC) (i : Nat) (h : pc = .goReaders → i < 8) : pc.spawned i ≤ 8 := by
  cases pc <;> simp [MainPC.spawned] at h ⊢
  omega

theorem numHolding_set {rs : List Reader} {r : Reader} {k : Nat} (h : rs[k]? = some r)
    (r0 : Reader) :
    numHolding (rs.set k r0) + (if r.pc.holds then 1 else 0)
      = numHolding rs + (if r0.pc.holds then 1 else 0) :=
  countP_set_add (fun r => r.pc.holds) h

theorem numCounted_set {rs : List Reader} {r : Reader} {k : Nat} (h : rs[k]? = some r)
    (r0 : Reader) :
    numCounted (rs.set k r0) + (if r.pc.counted then 1 else 0)
      = numCounted rs + (if r0.pc.counted then 1 else 0) :=
  countP_set_add (fun r => r.pc.counted) h

theorem numHolding_mem_le {rs : List Reader} {r : Reader} {k : Nat} (h : rs[k]? = some r) :
    (if r.pc.holds then 1 else 0) ≤ numHolding rs := by
  obtain ⟨hk, hr⟩ := List.getElem?_eq_some_iff.mp h
  have := List.boole_getElem_le_countP (fun r => r.pc.holds) rs k hk
  rw [hr] at this
  exact this

theorem numCounted_mem_le {rs : List Reader} {r : Reader} {k : Nat} (h : rs[k]? = some r) :
    (if r.pc.counted then 1 else 0) ≤ numCounted rs := by
  obtain ⟨hk, hr⟩ := List.getElem?_eq_some_iff.mp h
  have := List.boole_getElem_le_countP (fun r => r.pc.counted) rs k hk
  rw [hr] at this
  exact this

theorem numCounted_mem_lt {rs : List Reader} {r : Reader} {k : Nat} (h : rs[k]? = some r) :
    numCounted rs + (if r.pc.counted then 0 else 1) ≤ rs.length := by
  have h1 := numCounted_set h { r with pc := .sleep }
  have h2 := numCounted_le_length (rs.set k { r with pc := .sleep })
  have h3 := numCounted_le_length rs
  simp only [List.length_set] at h2
  cases hp : r.pc <;> simp [hp, ReaderPC.counted] at h1 ⊢ <;> omega

theorem numHolding_set_eq {rs : List Reader} {r : Reader} {k : Nat} (h : rs[k]? = some r)
    (r0 : Reader) :
    numHolding (rs.set k r0)
      = numHolding rs + (if r0.pc.holds then 1 else 0) - (if r.pc.holds then 1 else 0) := by
  have h1 := numHolding_set h r0
  have h2 := numHolding_mem_le h
  split_ifs at h1 h2 ⊢ <;> omega

theorem numCounted_set_eq {rs : List Reader} {r : Reader} {k : Nat} (h : rs[k]? = some r)
    (r0 : Reader) :
    numCounted (rs.set k r0)
      = numCounted rs + (if r0.pc.counted then 1 else 0) - (if r.pc.counted then 1 else 0) := by
  have h1 := numCounted_set h r0
  have h2 := numCounted_mem_le h
  split_ifs at h1 h2 ⊢ <;> omega

theorem ids_set {rs : List Reader} {r r0 : Reader} {k : Nat}
    (hid : ∀ (j : Nat) (x : Reader), rs[j]? = some x → x.id = j)
    (h : rs[k]? = some r) (h0 : r0.id = r.id) :
    ∀ (j : Nat) (x : Reader), (rs.set k r0)[j]? = some x → x.id = j := by
  intro j x hx
  rcases getElem?_set_cases hx with ⟨rfl, rfl⟩ | ⟨_, hj⟩
  · rw [h0]; exact hid _ _ h
  · exact hid _ _ hj

theorem rcs_set {rs : List Reader} {r0 : Reader} {k : Nat}
    (hrc : ∀ (j : Nat) (x : Reader), rs[j]? = some x →
      x.pc = .sleep ∨ x.pc = .print → 1 ≤ x.rc ∧ x.rc ≤ 8)
    (h0 : r0.pc = .sleep ∨ r0.pc = .print → 1 ≤ r0.rc ∧ r0.rc ≤ 8) :
    ∀ (j : Nat) (x : Reader), (rs.set k r0)[j]? = some x →
      x.pc = .sleep ∨ x.pc = .print → 1 ≤ x.rc ∧ x.rc ≤ 8 := by
  intro j x hx
  rcases getElem?_set_cases hx with ⟨rfl, rfl⟩ | ⟨_, hj⟩
  · exact h0
  · exact hrc _ _ hj

set_option maxHeartbeats 1600000 in
/-- Every step of a reader preserves the invariant. -/
theorem inv_stepReader {s s' : State} {k : Nat} (h : Invariant s)
    (hs : stepReader s k = .next s') : Invariant s' := by
  have ⟨h1, h2, h3, h4, h5, h6, h7, h8, h9, h10, h10z, h11, h12, h13, h14, h15, h16, h17, h18⟩ := h
  have hlen : s.readers.length ≤ 8 := by rw [h6]; exact spawned_le _ _ h7
  unfold stepReader at hs
  cases hr : s.readers[k]? with
  | none => simp [hr] at hs
  | some r =>
    simp only [hr] at hs
    have hrc := h9 k r hr
    cases hpc : r.pc <;> simp only [hpc] at hs hrc
    all_goals (try split at hs)
    all_goals (try (simp only [Outcome.next.injEq, reduceCtorEq] at hs))
    all_goals (try (subst hs; constructor <;> dsimp only <;> try assumption))
    all_goals (try (simp only [List.length_set]; assumption))
    all_goals (try (exact ids_set h8 hr rfl))
    all_goals (try (refine rcs_set h9 ?_; dsimp only; simp; done))
    all_goals (try (refine rcs_set h9 ?_; dsimp only; simpa using hrc))
    all_goals (try rw [numHolding_set_eq hr])
    all_goals (try rw [numCounted_set_eq hr])
    all_goals (try simp only [atomicAddInt64, int64])
    all_goals
      have hA := numHolding_mem_le hr
      have hB := numCounted_mem_le hr
      have hC := numCounted_mem_lt hr
      have hD := numCounted_le_numHolding s.readers
      simp only [hpc, ReaderPC.holds, ReaderPC.counted] at hA hB hC ⊢
      try simp at hA hB hC ⊢
    all_goals (try omega)
    all_goals (try assumption)
    case some.rlock.isFalse.excl =>
      rename_i hc
      simp only [Bool.or_eq_true, not_or, Bool.not_eq_true] at hc
      exact hc.1
    case some.add.rcs =>
      refine rcs_set h9 ?_
      intro _
      dsimp only
      omega
    case some.runlock.isFalse.excl =>
      intro hw
      have := h4 hw
      omega

/-- Every step of the program preserves the invariant. -/
theorem inv_step {s s' : State} {t : Task} (h : Invariant s) (hs : step s t = .next s') :
    Invariant s' := by
  unfold step at hs
  split at hs
  · simp at hs
  · cases t with
    | main => exact inv_stepMain h hs
    | writer => exact inv_stepWriter h hs
    | reader k => exact inv_stepReader h hs

theorem run_cons_some {s s' : State} {t : Task} {ts : List Task}
    (h : run s (t :: ts) = some s') : ∃ m, step s t = .next m ∧ run m ts = some s' := by
  simp only [run] at h
  split at h
  · rename_i m hm
    exact ⟨m, hm, h⟩
  · simp at h

theorem run_append (s : State) (σ₁ σ₂ : List Task) :
    run s (σ₁ ++ σ₂) = (run s σ₁).bind (fun m => run m σ₂) := by
  induction σ₁ generalizing s with
  | nil => simp [run]
  | cons t ts ih =>
    simp only [List.cons_append, run]
    split
    · exact ih _
    · simp

theorem inv_run {s s' : State} {σ : List Task} (h : Invariant s) (hr : run s σ = some s') :
    Invariant s' := by
  induction σ generalizing s with
  | nil => simp [run] at hr; subst hr; exact h
  | cons t ts ih =>
    obtain ⟨m, hm, hrest⟩ := run_cons_some hr
    exact ih (inv_step h hm) hrest

/-- Every reachable state satisfies the invariant. -/
theorem inv_of_reachable {s : State} (h : Reachable s) : Invariant s := by
  obtain ⟨σ, hσ⟩ := h
  exact inv_run inv_init hσ

/-- No reachable step is a fault: `Unlock`, `RUnlock` and the wait-group
operations are only called in states where they are legal. -/
theorem step_ne_fault {s : State} {t : Task} (h : Invariant s) : step s t ≠ .fault := by
  have ⟨h1, h2, h3, h4, h5, h6, h7, h8, h9, h10, h10z, h11, h12, h13, h14, h15, h16, h17, h18⟩ := h
  unfold step
  split
  · simp
  · cases t with
    | main =>
      unfold stepMain
      cases hpc : s.mainPC <;> simp only [hpc] at h16 ⊢ <;> (try split) <;> simp
      rename_i hlt
      simp at h16
      omega
    | writer =>
      unfold stepWriter
      cases hpc : s.writer.pc <;> simp only [hpc] at h1 h16 ⊢ <;> (try split) <;> (try split) <;>
        simp [WriterPC.holds] at *
      · simp_all
      · rename_i hm hlt
        have hm' : s.mainPC ≠ .wgAdd := by
          intro e
          have := h10.mpr (Or.inl e)
          simp [hpc] at this
        simp [hm'] at h16
        omega
    | reader k =>
      unfold stepReader
      cases hr : s.readers[k]? with
      | none => simp [hr]
      | some r =>
        simp only [hr]
        cases hpc : r.pc <;> simp only <;> (try split) <;> simp
        rename_i hz
        have := numHolding_mem_le hr
        simp [hpc, ReaderPC.holds] at this
        omega

theorem stepMain_data {s s' : State} (hs : stepMain s = .next s') :
    s'.data = s.data ∧ s'.readCount = s.readCount := by
  unfold stepMain at hs
  cases hpc : s.mainPC <;> simp only [hpc] at hs <;> (try split at hs) <;>
    simp only [Outcome.next.injEq, reduceCtorEq] at hs <;> subst hs <;> simp

theorem stepReader_data {s s' : State} {k : Nat} (hs : stepReader s k = .next s') :
    s'.data = s.data := by
  unfold stepReader at hs
  cases hr : s.readers[k]? with
  | none => simp [hr] at hs
  | some r =>
    simp only [hr] at hs
    cases hpc : r.pc <;> simp only [hpc] at hs <;> (try split at hs) <;>
      simp only [Outcome.next.injEq, reduceCtorEq] at hs <;> subst hs <;> rfl

theorem stepWriter_data {s s' : State} (hs : stepWriter s = .next s') :
    s'.data = (if s.writer.pc = .append then s.data ++ [sprintfString s.writer.i] else s.data)
      ∧ s'.readCount = s.readCount := by
  unfold stepWriter at hs
  cases hpc : s.writer.pc <;> simp only [hpc] at hs <;> (try split at hs) <;> (try split at hs) <;>
    simp only [Outcome.next.injEq, reduceCtorEq] at hs <;> subst hs <;> simp

theorem step_of_running {s s' : State} {t : Task} (hs : step s t = .next s') :
    s.mainPC ≠ .exited ∧
      (match t with
        | .main => stepMain s
        | .writer => stepWriter s
        | .reader k => stepReader s k) = .next s' := by
  unfold step at hs
  split at hs
  · simp at hs
  · rename_i h
    exact ⟨h, hs⟩

theorem expectedData_length (n : Nat) : (expectedData n).length = n := by
  unfold expectedData
  rw [List.length_map, List.length_range]

/-- Under the invariant `readCount` lies between 0 and 8. -/
theorem readCount_range {s : State} (hi : Invariant s) :
    0 ≤ s.readCount ∧ s.readCount ≤ 8 := by
  have hlen : s.readers.length ≤ 8 := by rw [hi.spawned]; exact spawned_le _ _ hi.mainI
  have hc := numCounted_le_length s.readers
  have h5 := hi.counter
  omega

theorem stepReader_readCount {s s' : State} {k : Nat} {r : Reader} (hi : Invariant s)
    (hr : s.readers[k]? = some r) (hs : stepReader s k = .next s') :
    s'.readCount = s.readCount + r.pc.delta := by
  have h5 := hi.counter
  have hlen : s.readers.length ≤ 8 := by rw [hi.spawned]; exact spawned_le _ _ hi.mainI
  have hc := numCounted_le_length s.readers
  have hB := numCounted_mem_le hr
  unfold stepReader at hs
  simp only [hr] at hs
  cases hpc : r.pc <;> simp only [hpc] at hs hB <;> (try split at hs) <;>
    simp only [Outcome.next.injEq, reduceCtorEq] at hs <;> subst hs <;>
    simp only [ReaderPC.delta, atomicAddInt64, int64, ReaderPC.counted] at hB ⊢ <;>
    (try simp at hB) <;> omega

theorem step_independent_of_data (s : State) (t : Task) (d : List String)
    (ha : access s t = .none) :
    step { s with data := d } t = (step s t).setData d := by
  unfold step
  dsimp only
  split
  · rfl
  · cases t with
    | main =>
      unfold stepMain
      dsimp only
      cases hpc : s.mainPC <;> simp only <;> (try split) <;> rfl
    | writer =>
      simp only [access] at ha
      unfold stepWriter
      dsimp only
      cases hpc : s.writer.pc <;> simp only [hpc] at ha ⊢ <;> (try split) <;> (try split) <;>
        first | rfl | simp at ha
    | reader k =>
      simp only [access] at ha
      unfold stepReader
      dsimp only
      cases hr : s.readers[k]? with
      | none => rfl
      | some r =>
        simp only [hr] at ha ⊢
        cases hpc : r.pc <;> simp only [hpc] at ha ⊢ <;> (try split) <;>
          first | rfl | simp at ha

theorem stepWriter_load {s s' : State} (hpc : s.writer.pc = .load)
    (hs : stepWriter s = .next s') : s'.writer.rc = s.readCount := by
  unfold stepWriter at hs
  simp only [hpc, Outcome.next.injEq] at hs
  subst hs
  rfl

theorem stepWriter_print {s s' : State} (hpc : s.writer.pc = .print)
    (hs : stepWriter s = .next s') : s'.out = s.out ++ [.write s.writer.rc] := by
  unfold stepWriter at hs
  simp only [hpc, Outcome.next.injEq] at hs
  subst hs
  rfl

theorem stepReader_self {s s' : State} {k : Nat} {r : Reader}
    (hr : s.readers[k]? = some r) (hs : stepReader s k = .next s') :
    s'.readers[k]? = some { id := r.id, pc := r.pc.succ,
                            rc := if r.pc = .add then atomicAddInt64 s.readCount 1 else r.rc } := by
  have hk : k < s.readers.length := (List.getElem?_eq_some_iff.mp hr).1
  unfold stepReader at hs
  simp only [hr] at hs
  cases hpc : r.pc <;> simp only [hpc] at hs <;> (try split at hs) <;>
    simp only [Outcome.next.injEq, reduceCtorEq] at hs <;> subst hs <;>
    simp [List.getElem?_set, hk, ReaderPC.succ]

theorem stepReader_other {s s' : State} {j k : Nat} {r : Reader} (hjk : j ≠ k)
    (hr : s.readers[k]? = some r) (hs : stepReader s j = .next s') :
    s'.readers[k]? = some r := by
  unfold stepReader at hs
  cases hj : s.readers[j]? with
  | none => simp [hj] at hs
  | some q =>
    simp only [hj] at hs
    cases hpc : q.pc <;> simp only [hpc] at hs <;> (try split at hs) <;>
      simp only [Outcome.next.injEq, reduceCtorEq] at hs <;> subst hs <;>
      simp [List.getElem?_set_ne hjk, hr]

theorem stepMain_readers {s s' : State} {k : Nat} {r : Reader}
    (hr : s.readers[k]? = some r) (hs : stepMain s = .next s') :
    s'.readers[k]? = some r := by
  have hk : k < s.readers.length := (List.getElem?_eq_some_iff.mp hr).1
  unfold stepMain at hs
  cases hpc : s.mainPC <;> simp only [hpc] at hs <;> (try split at hs) <;>
    simp only [Outcome.next.injEq, reduceCtorEq] at hs <;> subst hs <;>
    simp [List.getElem?_append_left hk, hr]

theorem stepWriter_readers {s s' : State} (hs : stepWriter s = .next s') :
    s'.readers = s.readers := by
  unfold stepWriter at hs
  cases hpc : s.writer.pc <;> simp only [hpc] at hs <;> (try split at hs) <;> (try split at hs) <;>
    simp only [Outcome.next.injEq, reduceCtorEq] at hs <;> subst hs <;> rfl

theorem step_other {s s' : State} {t : Task} {k : Nat} {r : Reader} (ht : t ≠ .reader k)
    (hr : s.readers[k]? = some r) (hs : step s t = .next s') :
    s'.readers[k]? = some r := by
  have hs' := (step_of_running hs).2
  cases t with
  | main => exact stepMain_readers hr hs'
  | writer => rw [stepWriter_readers hs']; exact hr
  | reader j =>
    have hjk : j ≠ k := fun e => ht (by rw [e])
    exact stepReader_other hjk hr hs'

/-- While a reader holds the gate in shared mode no step changes `data`. -/
theorem step_data_of_holding {s s' : State} {t : Task} {k : Nat} {r : Reader}
    (hi : Invariant s) (hr : s.readers[k]? = some r) (hh : r.pc.holds = true)
    (hs : step s t = .next s') : s'.data = s.data := by
  have hs' := (step_of_running hs).2
  cases t with
  | main => exact (stepMain_data hs').1
  | reader j => exact stepReader_data hs'
  | writer =>
    rw [(stepWriter_data hs').1]
    split
    · rename_i hpc
      have hle := numHolding_mem_le hr
      simp only [hh, if_true] at hle
      have hw : s.rwMutex.writerHeld = true := by rw [hi.held, hpc]; rfl
      have := hi.excl hw
      rw [hi.rcount] at this
      omega
    · rfl

theorem remaining_succ {pc : ReaderPC} (h : 0 < pc.remaining) :
    pc.succ.remaining = pc.remaining - 1 ∧ pc.succ.holds = true ∧ pc.holds = true := by
  cases pc <;> simp [ReaderPC.remaining, ReaderPC.succ, ReaderPC.holds] at h ⊢

/-- A reader that holds the gate keeps `data` fixed for as long as it has
not reached `RUnlock`: along any schedule in which it runs at most
`remaining` statements, `data` is unchanged and its program counter has
advanced by the number of statements it ran. -/
theorem run_while_holding {σ : List Task} {s m : State} {k : Nat} {r : Reader}
    (hi : Invariant s) (hr : s.readers[k]? = some r) (hh : r.pc.holds = true)
    (hc : σ.count (.reader k) ≤ r.pc.remaining) (hrun : run s σ = some m) :
    m.data = s.data ∧
      ∃ q : Reader, m.readers[k]? = some q ∧ q.id = r.id ∧ q.pc.holds = true ∧
        q.pc = ReaderPC.succ^[σ.count (.reader k)] r.pc ∧
        (r.pc ≠ .add → q.rc = r.rc) := by
  induction σ generalizing s r with
  | nil =>
    simp only [run, Option.some.injEq] at hrun
    subst hrun
    exact ⟨rfl, r, hr, rfl, hh, rfl, fun _ => rfl⟩
  | cons t ts ih =>
    obtain ⟨n, hn, hrest⟩ := run_cons_some hrun
    have hd := step_data_of_holding hi hr hh hn
    have hin := inv_step hi hn
    by_cases ht : t = .reader k
    · subst ht
      simp only [List.count_cons_self] at hc ⊢
      have hq := stepReader_self hr (step_of_running hn).2
      have hpos : 0 < r.pc.remaining := by omega
      obtain ⟨hrem, hsh, _⟩ := remaining_succ hpos
      obtain ⟨hdata, q, hq1, hq2, hq3, hq4, hq5⟩ :=
        ih hin hq hsh (by simp only [hrem]; omega) hrest
      refine ⟨by rw [hdata, hd], q, hq1, hq2, hq3, ?_, ?_⟩
      · rw [hq4, Function.iterate_succ_apply]
      · intro hne
        have hne' : r.pc.succ ≠ .add := by
          intro e
          cases hp : r.pc <;> simp [hp, ReaderPC.succ, ReaderPC.remaining] at e hpos
        rw [hq5 hne']
        simp [hne]
    · have hq := step_other ht hr hn
      have hcount : (t :: ts).count (.reader k) = ts.count (.reader k) := by
        rw [List.count_cons_of_ne]
        exact fun e => ht e.symm
      rw [hcount] at hc ⊢
      obtain ⟨hdata, q, hq1, hq2, hq3, hq4, hq5⟩ := ih hin hq hh hc hrest
      exact ⟨by rw [hdata, hd], q, hq1, hq2, hq3, hq4, hq5⟩

theorem stepReader_print {s s' : State} {k : Nat} {q : Reader}
    (hq : s.readers[k]? = some q) (hpc : q.pc = .print) (hs : stepReader s k = .next s') :
    s'.out = s.out ++ [.read q.id s.data.length q.rc] := by
  unfold stepReader at hs
  simp only [hq, hpc, Outcome.next.injEq] at hs
  subst hs
  rfl

theorem stepReader_rlock {s s' : State} {k : Nat} {r : Reader}
    (hr : s.readers[k]? = some r) (hpc : r.pc = .rlock) (hs : stepReader s k = .next s') :
    s.rwMutex.writerHeld = false := by
  unfold stepReader at hs
  simp only [hr, hpc] at hs
  split at hs
  · simp at hs
  · rename_i hc
    simp only [Bool.or_eq_true, not_or, Bool.not_eq_true] at hc
    exact hc.1

theorem run_append_some {s s' : State} {σ₁ σ₂ : List Task}
    (h : run s (σ₁ ++ σ₂) = some s') : ∃ m, run s σ₁ = some m ∧ run m σ₂ = some s' := by
  rw [run_append] at h
  cases hm : run s σ₁ with
  | none => simp [hm] at h
  | some m => exact ⟨m, rfl, by simpa [hm] using h⟩

theorem stepWriter_append {s s' : State} (hpc : s.writer.pc = .append)
    (hs : stepWriter s = .next s') : s'.data = s.data ++ [sprintfString s.writer.i] := by
  rw [(stepWriter_data hs).1, if_pos hpc]

theorem step_data_extends {s s' : State} {t : Task} (hs : step s t = .next s') :
    s.data <+: s'.data := by
  have hs' := (step_of_running hs).2
  cases t with
  | main => rw [(stepMain_data hs').1]
  | reader k => rw [stepReader_data hs']
  | writer =>
    rw [(stepWriter_data hs').1]
    split
    · exact List.prefix_append _ _
    · exact List.prefix_refl _

theorem stepMain_writer {s s' : State} (hs : stepMain s = .next s') :
    s'.writer = (if s.mainPC = .goWriter then { pc := .sleep, i := 0, rc := 0 } else s.writer) := by
  unfold stepMain at hs
  cases hpc : s.mainPC <;> simp only [hpc] at hs <;> (try split at hs) <;>
    simp only [Outcome.next.injEq, reduceCtorEq] at hs <;> subst hs <;> simp

theorem stepReader_writer {s s' : State} {k : Nat} (hs : stepReader s k = .next s') :
    s'.writer = s.writer := by
  unfold stepReader at hs
  cases hr : s.readers[k]? with
  | none => simp [hr] at hs
  | some r =>
    simp only [hr] at hs
    cases hpc : r.pc <;> simp only [hpc] at hs <;> (try split at hs) <;>
      simp only [Outcome.next.injEq, reduceCtorEq] at hs <;> subst hs <;> rfl

theorem writer_of_other_step {s s' : State} {t : Task} (hi : Invariant s)
    (ht : t ≠ .writer) (hs : step s t = .next s') :
    s'.writer = s.writer ∨
      (s.writer = { pc := .notStarted, i := 0, rc := s.writer.rc } ∧
        s'.writer = { pc := .sleep, i := 0, rc := 0 }) := by
  have hs' := (step_of_running hs).2
  cases t with
  | writer => exact absurd rfl ht
  | reader k => exact Or.inl (stepReader_writer hs')
  | main =>
    rw [stepMain_writer hs']
    split
    · rename_i hpc
      right
      have hw := hi.wstart.mpr (Or.inr hpc)
      have hz := hi.wzero hw
      refine ⟨?_, rfl⟩
      cases hwr : s.writer
      simp only [hwr] at hw hz
      simp [hw, hz]
    · exact Or.inl rfl

theorem stepWriter_calls {s s' : State} (hs : stepWriter s = .next s') :
    List.range (callsBegun s.writer) ++ (if s.writer.pc = .lock then [s.writer.i] else [])
        = List.range (callsBegun s'.writer) ∧
      s'.writer.i = s.writer.i + (if s.writer.pc = .unlock then 1 else 0) ∧
      writerDist s'.writer < writerDist s.writer := by
  unfold stepWriter at hs
  cases hpc : s.writer.pc <;> simp only [hpc] at hs <;> (try split at hs) <;> (try split at hs) <;>
    simp only [Outcome.next.injEq, reduceCtorEq] at hs <;> subst hs <;>
    (simp [callsBegun, writerDist, hpc, List.range_succ]; try omega)

theorem step_calls {s s' : State} {t : Task} (hi : Invariant s) (hs : step s t = .next s') :
    List.range (callsBegun s.writer)
        ++ (if t = .writer ∧ s.writer.pc = .lock then [s.writer.i] else [])
        = List.range (callsBegun s'.writer) ∧
      s'.writer.i = s.writer.i + (if t = .writer ∧ s.writer.pc = .unlock then 1 else 0) ∧
      writerDist s'.writer + (if t = .writer then 1 else 0) ≤ writerDist s.writer := by
  by_cases ht : t = .writer
  · subst ht
    have := stepWriter_calls (step_of_running hs).2
    simp only [true_and, if_true]
    exact ⟨this.1, this.2.1, this.2.2⟩
  · simp only [ht, false_and, if_false, List.append_nil, Nat.add_zero]
    rcases writer_of_other_step hi ht hs with h | ⟨h1, h2⟩
    · rw [h]; simp
    · rw [h1, h2]; simp [callsBegun, writerDist]

/-- Along a schedule the calls begun extend `writer(0)`, `writer(1)`, ... in
order, the loop variable counts the calls that returned, and every writer
statement uses up one unit of `writerDist`. -/
theorem run_calls {σ : List Task} {s s' : State} (hi : Invariant s) (hrun : run s σ = some s') :
    List.range (callsBegun s.writer) ++ writerCalls s σ = List.range (callsBegun s'.writer) ∧
      s'.writer.i = s.writer.i + writerReturns s σ ∧
      writerDist s'.writer + σ.count .writer ≤ writerDist s.writer := by
  induction σ generalizing s with
  | nil =>
    simp only [run, Option.some.injEq] at hrun
    subst hrun
    simp [writerCalls, writerReturns]
  | cons t ts ih =>
    obtain ⟨m, hm, hrest⟩ := run_cons_some hrun
    obtain ⟨h1, h2, h3⟩ := step_calls hi hm
    obtain ⟨g1, g2, g3⟩ := ih (inv_step hi hm) hrest
    simp only [writerCalls, writerReturns, hm]
    refine ⟨?_, ?_, ?_⟩
    · rw [← List.append_assoc, h1, g1]
    · rw [g2, h2]; omega
    · by_cases ht : t = .writer
      · subst ht
        simp only [List.count_cons_self, if_true] at h3 ⊢
        omega
      · rw [List.count_cons_of_ne (fun e => ht e.symm)]
        simp only [ht, if_false] at h3
        omega

/-- The writer's loop variable is the number of calls to `writer` that have
returned. -/
theorem writerReturns_eq {σ : List Task} {s : State} (h : run init σ = some s) :
    writerReturns init σ = s.writer.i := by
  have := (run_calls inv_init h).2.1
  simpa [init] using this.symm

theorem readersDist_set {rs : List Reader} {r : Reader} {k : Nat} (h : rs[k]? = some r)
    (r0 : Reader) :
    readersDist (rs.set k r0) + r.pc.toRelease = readersDist rs + r0.pc.toRelease := by
  induction rs generalizing k with
  | nil => simp at h
  | cons x xs ih =>
    cases k with
    | zero =>
      simp only [List.getElem?_cons_zero, Option.some.injEq] at h
      subst h
      simp only [List.set_cons_zero, readersDist, List.map_cons, List.sum_cons]
      omega
    | succ k =>
      simp only [List.getElem?_cons_succ] at h
      have := ih h
      simp only [List.set_cons_succ, readersDist, List.map_cons, List.sum_cons] at this ⊢
      omega

theorem readersDist_set_lt {rs : List Reader} {r r0 : Reader} {k : Nat} (h : rs[k]? = some r)
    (hlt : r0.pc.toRelease < r.pc.toRelease) :
    readersDist (rs.set k r0) < readersDist rs := by
  have := readersDist_set h r0
  omega

theorem exists_holding {rs : List Reader} (h : 0 < numHolding rs) :
    ∃ (k : Nat) (r : Reader), rs[k]? = some r ∧ r.pc.holds = true := by
  unfold numHolding at h
  obtain ⟨r, hr, hh⟩ := List.countP_pos_iff.mp h
  obtain ⟨k, hk, hkr⟩ := List.getElem_of_mem hr
  exact ⟨k, r, by rw [List.getElem?_eq_getElem hk, hkr], hh⟩

theorem progress_main {s : State} (hi : Invariant s)
    (hpc : s.mainPC ≠ .exited) (hw : s.mainPC = .wgWait → s.writer.pc = .exited) :
    ∃ s', step s .main = .next s' ∧ rank s' < rank s := by
  have hwg := hi.wgc
  have hws := hi.wstart
  have hwz := hi.wzero
  unfold step
  simp only [hpc, if_false]
  unfold stepMain
  cases hm : s.mainPC <;> simp only [hm] at hpc hw hwg hws ⊢
  · -- wgAdd
    simp only [true_or, if_true] at hwg
    rw [if_neg (by omega)]
    exact ⟨_, rfl, by simp [rank, mainDist, hm]⟩
  · -- goWriter
    refine ⟨_, rfl, ?_⟩
    have hns : s.writer.pc = .notStarted := hws.mpr (by simp)
    simp [rank, mainDist, writerDist, hns, hm]
  · -- goReaders
    refine ⟨_, rfl, ?_⟩
    simp only [rank, readersDist, List.map_append, List.sum_append, List.map_cons, List.map_nil,
      List.sum_cons, List.sum_nil, ReaderPC.toRelease]
    have := hi.mainI hm
    split <;> (simp [mainDist, hm]; try omega)
  · -- wgWait
    have := hw trivial
    simp only [this, or_true, if_true] at hwg
    rw [if_pos hwg]
    exact ⟨_, rfl, by simp [rank, mainDist, hm]⟩
  · exact ⟨_, rfl, by simp [rank, mainDist, hm]⟩
  · exact ⟨_, rfl, by simp [rank, mainDist, hm]⟩
  · exact absurd rfl hpc

theorem progress_reader {s : State} (hi : Invariant s) (hpc : s.mainPC ≠ .exited)
    {k : Nat} {r : Reader} (hr : s.readers[k]? = some r) (hh : r.pc.holds = true) :
    ∃ s', step s (.reader k) = .next s' ∧ rank s' < rank s := by
  have hle := numHolding_mem_le hr
  simp only [hh, if_true] at hle
  have hrc : s.rwMutex.readerCount ≠ 0 := by rw [hi.rcount]; omega
  unfold step
  simp only [hpc, if_false]
  unfold stepReader
  simp only [hr]
  cases hp : r.pc <;> simp only [hp, ReaderPC.holds] at hh ⊢
  · simp at hh
  all_goals (try rw [if_neg hrc])
  all_goals
    refine ⟨_, rfl, ?_⟩
    simp only [rank]
    apply Nat.add_lt_add_left
    exact readersDist_set_lt hr (by simp [hp, ReaderPC.toRelease])

theorem progress_writer {s : State} (hi : Invariant s) (hpc : s.mainPC ≠ .exited)
    (hns : s.writer.pc ≠ .notStarted) (hex : s.writer.pc ≠ .exited)
    (hz : numHolding s.readers = 0) :
    ∃ s', step s .writer = .next s' ∧ rank s' < rank s := by
  have hrc : s.rwMutex.readerCount = 0 := by rw [hi.rcount]; exact hz
  have hheld := hi.held
  have hwg := hi.wgc
  have hm : s.mainPC ≠ .wgAdd := fun e => hns (hi.wstart.mpr (Or.inl e))
  have hstep : ∃ s', stepWriter s = .next s' := by
    unfold stepWriter
    cases hp : s.writer.pc <;> simp only [hp, WriterPC.holds] at hns hex hheld hwg ⊢
    · exact absurd rfl hns
    · exact ⟨_, rfl⟩
    · rw [hheld, hrc]; exact ⟨_, rfl⟩
    · rw [if_pos hrc]; exact ⟨_, rfl⟩
    · exact ⟨_, rfl⟩
    · exact ⟨_, rfl⟩
    · exact ⟨_, rfl⟩
    · rw [hheld]; exact ⟨_, rfl⟩
    · simp only [hm, false_or, reduceCtorEq, if_false] at hwg
      rw [if_neg (by omega)]; exact ⟨_, rfl⟩
    · exact absurd rfl hex
  obtain ⟨s', hs'⟩ := hstep
  refine ⟨s', by unfold step; simp only [hpc, if_false]; exact hs', ?_⟩
  have h1 := (stepWriter_calls hs').2.2
  have h2 := stepWriter_readers hs'
  have h3 : s'.mainPC = s.mainPC ∧ s'.mainI = s.mainI := by
    unfold stepWriter at hs'
    cases hp : s.writer.pc <;> simp only [hp] at hs' <;> (try split at hs') <;>
      (try split at hs') <;>
      simp only [Outcome.next.injEq, reduceCtorEq] at hs' <;> subst hs' <;> exact ⟨rfl, rfl⟩
  simp only [rank, h2, h3.1, h3.2]
  omega

/-- As long as `main` has not returned, some goroutine can take a step that
brings the program closer to its end. -/
theorem progress {s : State} (hi : Invariant s) (hpc : s.mainPC ≠ .exited) :
    ∃ t s', step s t = .next s' ∧ rank s' < rank s := by
  by_cases hw : s.mainPC = .wgWait → s.writer.pc = .exited
  · obtain ⟨s', h1, h2⟩ := progress_main hi hpc hw
    exact ⟨.main, s', h1, h2⟩
  · push_neg at hw
    obtain ⟨hm, hex⟩ := hw
    have hns : s.writer.pc ≠ .notStarted := by
      intro e
      have := hi.wstart.mp e
      rw [hm] at this
      simp at this
    by_cases hz : numHolding s.readers = 0
    · obtain ⟨s', h1, h2⟩ := progress_writer hi hpc hns hex hz
      exact ⟨.writer, s', h1, h2⟩
    · obtain ⟨k, r, hr, hh⟩ := exists_holding (Nat.pos_of_ne_zero hz)
      obtain ⟨s', h1, h2⟩ := progress_reader hi hpc hr hh
      exact ⟨.reader k, s', h1, h2⟩

/-- From every state that satisfies the invariant some schedule lets `main`
return. -/
theorem can_complete (n : Nat) : ∀ s : State, Invariant s → rank s ≤ n →
    ∃ σ s', run s σ = some s' ∧ s'.mainPC = .exited := by
  induction n with
  | zero =>
    intro s hi hn
    by_cases hpc : s.mainPC = .exited
    · exact ⟨[], s, rfl, hpc⟩
    · obtain ⟨t, s', _, hlt⟩ := progress hi hpc
      omega
  | succ n ih =>
    intro s hi hn
    by_cases hpc : s.mainPC = .exited
    · exact ⟨[], s, rfl, hpc⟩
    · obtain ⟨t, s', hs, hlt⟩ := progress hi hpc
      obtain ⟨σ, s'', hrun, hex⟩ := ih s' (inv_step hi hs) (by omega)
      exact ⟨t :: σ, s'', by simp only [run, hs]; exact hrun, hex⟩

theorem callsBegun_le {s : State} (hi : Invariant s) : callsBegun s.writer ≤ 10 := by
  have h1 := hi.wloop
  have h2 := hi.wend
  unfold callsBegun
  cases hp : s.writer.pc <;> simp only [hp] at h1 h2 ⊢ <;> simp at h1 h2 <;> omega

theorem main_blocked_iff {s : State} (hi : Invariant s) :
    step s .main = .blocked ↔
      s.mainPC = .exited ∨ (s.mainPC = .wgWait ∧ s.writer.pc ≠ .exited) := by
  have hwg := hi.wgc
  unfold step
  by_cases hpc : s.mainPC = .exited
  · simp [hpc]
  · simp only [hpc, if_false, false_or]
    unfold stepMain
    cases hm : s.mainPC <;> simp only [hm] at hpc hwg ⊢ <;> (try split) <;>
      simp [reduceCtorEq] at *
    · rename_i h0
      by_contra he
      simp [he] at hwg
      omega
    · rename_i h0
      intro he
      simp [he] at hwg
      omega

theorem stepWriter_unlock_pc {s s' : State} (hpc : s.writer.pc = .unlock)
    (hs : stepWriter s = .next s') : s'.writer.pc ≠ .unlock := by
  unfold stepWriter at hs
  simp only [hpc] at hs
  split at hs
  · simp only [Outcome.next.injEq] at hs
    subst hs
    dsimp only
    split <;> simp
  · simp at hs

/-- If the writer's count of returned calls passes from below `M` to at
least `M` along a schedule, some state on the way is the one right after the
`M`-th call has returned. -/
theorem exists_return {σ : List Task} {s s' : State} {M : Nat} (hi : Invariant s)
    (hrun : run s σ = some s') (hlt : s.writer.i < M) (hle : M ≤ s'.writer.i) :
    ∃ σ₁ m, run s σ₁ = some m ∧ m.writer.i = M ∧ m.writer.pc ≠ .unlock := by
  induction σ generalizing s with
  | nil =>
    simp only [run, Option.some.injEq] at hrun
    subst hrun
    omega
  | cons t ts ih =>
    obtain ⟨n, hn, hrest⟩ := run_cons_some hrun
    have hstep := (step_calls hi hn).2.1
    by_cases hM : n.writer.i = M
    · refine ⟨[t], n, by simp [run, hn], hM, ?_⟩
      have hc : t = .writer ∧ s.writer.pc = .unlock := by
        by_contra hc
        rw [if_neg hc] at hstep
        omega
      obtain ⟨ht, hpc⟩ := hc
      subst ht
      exact stepWriter_unlock_pc hpc (step_of_running hn).2
    · have hlt' : n.writer.i < M := by
        split at hstep <;> omega
      obtain ⟨σ₁, m, hm, hmi, hmpc⟩ := ih (inv_step hi hn) hrest hlt'
      exact ⟨t :: σ₁, m, by simp only [run, hn]; exact hm, hmi, hmpc⟩

/-- From every reachable state, every further call of the writer can return:
for each `M` above the number of calls returned so far, up to ten, some
continuation of the schedule reaches the state right after the `M`-th call
has returned, and there `len(data) = M`. -/
theorem can_return {σ : List Task} {s : State} (h : run init σ = some s) {M : Nat}
    (hlt : writerReturns init σ < M) (hle : M ≤ 10) :
    ∃ σ' s', run init (σ ++ σ') = some s' ∧ writerReturns init (σ ++ σ') = M ∧
      s'.writer.pc ≠ .unlock ∧ s'.data.length = M := by
  have hi : Invariant s := inv_run inv_init h
  obtain ⟨σe, e, hrune, hex⟩ := can_complete (rank s) s hi (Nat.le_refl _)
  have hie := inv_run hi hrune
  have he10 : e.writer.i = 10 := hie.wend (Or.inr (hie.after (Or.inr (Or.inr hex))))
  rw [writerReturns_eq h] at hlt
  obtain ⟨σ', m, hm, hmi, hmpc⟩ := exists_return hi hrune hlt (by omega)
  have hfull : run init (σ ++ σ') = some m := by
    rw [run_append, h]
    exact hm
  have him := inv_run hi hm
  refine ⟨σ', m, hfull, by rw [writerReturns_eq hfull, hmi], hmpc, ?_⟩
  have := congrArg List.length him.wdata
  rw [expectedData_length, if_neg hmpc] at this
  omega

/-! ## The claims -/

/-- C1. Mutual exclusion: in every reachable state the gate is free, or held
exclusively (by the writer, the only goroutine that calls `Lock`), or held
shared by at least one reader; the gate's bookkeeping agrees with the
critical sections of the goroutines, and no reader is between `RLock` and
`RUnlock` while the writer is between `Lock` and `Unlock`. -/
theorem mutual_exclusion (s : State) (h : Reachable s) :
    ((s.rwMutex.writerHeld = false ∧ s.rwMutex.readerCount = 0) ∨
      (s.rwMutex.writerHeld = true ∧ s.rwMutex.readerCount = 0) ∨
      (s.rwMutex.writerHeld = false ∧ 1 ≤ s.rwMutex.readerCount)) ∧
    s.rwMutex.writerHeld = s.writer.pc.holds ∧
    s.rwMutex.readerCount = numHolding s.readers ∧
    (s.writer.pc.holds = true → ∀ r ∈ s.readers, r.pc.holds = false) ∧
    ((∃ r ∈ s.readers, r.pc.holds = true) → s.writer.pc.holds = false) := by
  have hi := inv_of_reachable h
  have hz : s.writer.pc.holds = true → ∀ r ∈ s.readers, r.pc.holds = false := by
    intro hw r hr
    have h0 := hi.excl (by rw [hi.held]; exact hw)
    rw [hi.rcount] at h0
    have := List.countP_eq_zero.mp h0 r hr
    simpa using this
  refine ⟨?_, hi.held, hi.rcount, hz, ?_⟩
  · have := hi.excl
    cases hw : s.rwMutex.writerHeld
    · simp; omega
    · simp [this hw]
  · rintro ⟨r, hr, hh⟩
    by_contra hw
    simp only [Bool.not_eq_false] at hw
    have := hz hw r hr
    simp [hh] at this

/-- C1 at a concrete state: two readers hold the gate, the writer waits in `Lock`. -/
theorem mutual_exclusion_witness :
    Reachable contendedState ∧ contendedState.rwMutex.writerHeld = false ∧
      contendedState.rwMutex.readerCount = 2 ∧
      contendedState.rwMutex.readerCount = numHolding contendedState.readers ∧
      contendedState.writer.pc.holds = false :=
  have hr : Reachable contendedState := ⟨contendedSchedule, by decide⟩
  ⟨hr, by decide, by decide, (mutual_exclusion contendedState hr).2.2.1,
    (mutual_exclusion contendedState hr).2.2.2.2
      ⟨{ id := 0, pc := .print, rc := 1 }, by decide, by decide⟩⟩

/-- C2. Append monotonicity: along every schedule at most ten calls to
`writer` return, and when `N` calls have returned `len(data)` is `N`, plus
one while the writer stands between the append of its next call and the
`Unlock`; steps of `main` and of readers leave `data` unchanged and a writer
step grows it by one exactly when it is the append; once the loop is over
ten calls have returned and `len(data) = 10`.  The calls do return: whatever
the schedule so far, for every `M` above the number of calls returned and up
to ten, the schedule can be continued to the state right after the `M`-th
call has returned, where `len(data) = M`; in particular the loop can always
be brought to its end with `len(data) = 10`. -/
theorem append_monotonicity (σ : List Task) (s : State) (h : run init σ = some s) :
    writerReturns init σ ≤ 10 ∧
    s.data.length = writerReturns init σ + (if s.writer.pc = .unlock then 1 else 0) ∧
    (∀ k s', step s (.reader k) = .next s' → s'.data = s.data) ∧
    (∀ s', step s .main = .next s' → s'.data = s.data) ∧
    (∀ s', step s .writer = .next s' →
      s'.data.length = s.data.length + (if s.writer.pc = .append then 1 else 0)) ∧
    (s.writer.pc = .wgDone ∨ s.writer.pc = .exited →
      writerReturns init σ = 10 ∧ s.data.length = 10) ∧
    (∀ M, writerReturns init σ < M → M ≤ 10 →
      ∃ σ' s', run init (σ ++ σ') = some s' ∧ writerReturns init (σ ++ σ') = M ∧
        s'.writer.pc ≠ .unlock ∧ s'.data.length = M) ∧
    (∃ σ' s', run init (σ ++ σ') = some s' ∧
      (s'.writer.pc = .wgDone ∨ s'.writer.pc = .exited) ∧
      writerReturns init (σ ++ σ') = 10 ∧ s'.data.length = 10) := by
  have hi : Invariant s := inv_run inv_init h
  have hret := writerReturns_eq h
  have hlen : s.data.length = s.writer.i + (if s.writer.pc = .unlock then 1 else 0) := by
    have := congrArg List.length hi.wdata
    rw [this, expectedData_length]
  have hfin : ∀ (τ : List Task) (e : State), run init τ = some e →
      (e.writer.pc = .wgDone ∨ e.writer.pc = .exited) →
      writerReturns init τ = 10 ∧ e.data.length = 10 := by
    intro τ e hτ hd
    have hie : Invariant e := inv_run inv_init hτ
    refine ⟨by rw [writerReturns_eq hτ]; exact hie.wend hd, ?_⟩
    have := congrArg List.length hie.wdata
    rw [expectedData_length, hie.wend hd] at this
    rcases hd with hd | hd <;> simpa [hd] using this
  refine ⟨?_, ?_, ?_, ?_, ?_, hfin σ s h, fun M hlt hle => can_return h hlt hle, ?_⟩
  · rw [hret]
    by_cases h1 : s.writer.pc = .wgDone ∨ s.writer.pc = .exited
    · rw [hi.wend h1]
    · push_neg at h1
      exact Nat.le_of_lt (hi.wloop h1.1 h1.2)
  · rw [hret]; exact hlen
  · intro k s' hs
    exact stepReader_data (step_of_running hs).2
  · intro s' hs
    exact (stepMain_data (step_of_running hs).2).1
  · intro s' hs
    rw [(stepWriter_data (step_of_running hs).2).1]
    split <;> simp
  · obtain ⟨σ', e, hrune, hex⟩ := can_complete (rank s) s hi (Nat.le_refl _)
    have hie := inv_run hi hrune
    have hw : e.writer.pc = .exited := hie.after (Or.inr (Or.inr hex))
    have hfull : run init (σ ++ σ') = some e := by
      rw [run_append, h]
      exact hrune
    exact ⟨σ', e, hfull, Or.inr hw, hfin _ e hfull (Or.inr hw)⟩

/-- C2 at a schedule that runs the program to completion: all ten calls have
returned and `len(data) = 10`; and at the state after the first call has
returned, where `len(data) = 1`. -/
theorem append_monotonicity_witness :
    run init fullSchedule = some finalState ∧
      (writerReturns init fullSchedule = 10 ∧ finalState.data.length = 10) ∧
      run init snapStart = some snapGrant ∧ writerReturns init snapStart = 1 ∧
      snapGrant.data.length
        = writerReturns init snapStart + (if snapGrant.writer.pc = .unlock then 1 else 0) :=
  ⟨by decide,
    (append_monotonicity fullSchedule finalState (by decide)).2.2.2.2.2.1 (Or.inr (by decide)),
    by decide, by decide, (append_monotonicity snapStart snapGrant (by decide)).2.1⟩

/-- C3. Reader counter bounds: in every reachable state `0 ≤ readCount ≤ 8`
(the value `LoadInt64` returns), there are at most eight readers, and the
values that a pending `AddInt64(&readCount, 1)` or
`AddInt64(&readCount, -1)` is about to return lie in the same range. -/
theorem readCount_bounds (s : State) (h : Reachable s) :
    (0 ≤ s.readCount ∧ s.readCount ≤ 8) ∧
    s.readers.length ≤ 8 ∧
    (∀ (k : Nat) (r : Reader), s.readers[k]? = some r → r.pc = .add →
      0 ≤ atomicAddInt64 s.readCount 1 ∧ atomicAddInt64 s.readCount 1 ≤ 8) ∧
    (∀ (k : Nat) (r : Reader), s.readers[k]? = some r → r.pc = .dec →
      0 ≤ atomicAddInt64 s.readCount (-1) ∧ atomicAddInt64 s.readCount (-1) ≤ 8) := by
  have hi := inv_of_reachable h
  have hlen : s.readers.length ≤ 8 := by rw [hi.spawned]; exact spawned_le _ _ hi.mainI
  have hc := numCounted_le_length s.readers
  have h5 := hi.counter
  refine ⟨by omega, hlen, ?_, ?_⟩
  · intro k r hr hpc
    have := numCounted_mem_lt hr
    simp only [hpc, ReaderPC.counted] at this
    simp only [atomicAddInt64, int64]
    simp at this
    omega
  · intro k r hr hpc
    have := numCounted_mem_le hr
    simp only [hpc, ReaderPC.counted] at this
    simp only [atomicAddInt64, int64]
    simp at this
    omega

/-- C3 at a concrete state with `readCount = 2`. -/
theorem readCount_bounds_witness :
    Reachable contendedState ∧ contendedState.readCount = 2 ∧
      (0 ≤ contendedState.readCount ∧ contendedState.readCount ≤ 8) :=
  have hr : Reachable contendedState := ⟨contendedSchedule, by decide⟩
  ⟨hr, by decide, (readCount_bounds contendedState hr).1⟩

/-- C4. Guarded access: in every reachable state, a step that changes `data`
is a step of the writer taken while it holds the gate exclusively; the
statement that writes `data` (the append) belongs to the writer inside its
exclusive section; a statement that reads `data` (the `Printf` of a reader)
belongs to a reader inside its shared section, with the gate held shared; and
every other statement of `main`, `writer` and `reader` neither changes `data`
nor depends on it. -/
theorem guarded_access (s : State) (h : Reachable s) (t : Task) :
    (∀ s', step s t = .next s' → s'.data ≠ s.data →
      t = .writer ∧ s.rwMutex.writerHeld = true ∧ s.writer.pc.holds = true) ∧
    (access s t = .write →
      t = .writer ∧ s.rwMutex.writerHeld = true ∧ s.writer.pc.holds = true) ∧
    (access s t = .read →
      ∃ (k : Nat) (r : Reader), t = .reader k ∧ s.readers[k]? = some r ∧ r.pc.holds = true ∧
        1 ≤ s.rwMutex.readerCount ∧ s.rwMutex.writerHeld = false) ∧
    (access s t ≠ .write → ∀ s', step s t = .next s' → s'.data = s.data) ∧
    (access s t = .none → ∀ d, step { s with data := d } t = (step s t).setData d) := by
  have hi := inv_of_reachable h
  have hw : access s t = .write →
      t = .writer ∧ s.rwMutex.writerHeld = true ∧ s.writer.pc.holds = true := by
    intro ha
    cases t with
    | main => simp [access] at ha
    | writer =>
      simp only [access] at ha
      split at ha
      · rename_i hpc
        have : s.writer.pc.holds = true := by rw [hpc]; rfl
        exact ⟨rfl, by rw [hi.held]; exact this, this⟩
      · simp at ha
    | reader k =>
      simp only [access] at ha
      split at ha
      · split at ha <;> simp at ha
      · simp at ha
  have hnw : access s t ≠ .write → ∀ s', step s t = .next s' → s'.data = s.data := by
    intro ha s' hs
    have hs' := (step_of_running hs).2
    cases t with
    | main => exact (stepMain_data hs').1
    | writer =>
      rw [(stepWriter_data hs').1]
      split
      · rename_i hpc
        simp [access, hpc] at ha
      · rfl
    | reader k => exact stepReader_data hs'
  refine ⟨?_, hw, ?_, hnw, fun ha d => step_independent_of_data s t d ha⟩
  · intro s' hs hne
    by_cases ha : access s t = .write
    · exact hw ha
    · exact absurd (hnw ha s' hs) hne
  · intro ha
    cases t with
    | main => simp [access] at ha
    | writer =>
      simp only [access] at ha
      split at ha <;> simp at ha
    | reader k =>
      simp only [access] at ha
      split at ha
      · rename_i r hr
        split at ha
        · rename_i hpc
          have hh : r.pc.holds = true := by rw [hpc]; rfl
          have hle := numHolding_mem_le hr
          simp only [hh, if_true] at hle
          have h1 : 1 ≤ s.rwMutex.readerCount := by rw [hi.rcount]; exact hle
          refine ⟨k, r, rfl, hr, hh, h1, ?_⟩
          cases hwh : s.rwMutex.writerHeld
          · rfl
          · have := hi.excl hwh
            omega
        · simp at ha
      · simp at ha

/-- C4 at a concrete step: the writer's first append, taken while it holds the gate. -/
theorem guarded_access_witness :
    Reachable appendState ∧ step appendState .writer = .next writingState ∧
      writingState.data ≠ appendState.data ∧
      (Task.writer = Task.writer ∧ appendState.rwMutex.writerHeld = true ∧
        appendState.writer.pc.holds = true) :=
  have hr : Reachable appendState := ⟨appendSchedule, by decide⟩
  ⟨hr, by decide, by decide,
    (guarded_access appendState hr .writer).1 writingState (by decide) (by decide)⟩

/-- C5. Snapshot consistency: take any reader cycle of any schedule, from
the state `s₁` in which `RLock` is granted.  Let the schedule go on with any
steps of the other goroutines interleaved with the reader's own increment,
sleep, print and (possibly) decrement.  Then at the grant `len(data)` is the
number of writer calls that have returned, `data` is the same in every state of
the interval, and the line the reader prints carries exactly that length. -/
theorem snapshot_consistency (σ₁ σa σb : List Task) (k : Nat) (s₁ s₂ s₃ : State) (r : Reader)
    (h₁ : run init σ₁ = some s₁)
    (hr : s₁.readers[k]? = some r) (hpc : r.pc = .rlock)
    (hlock : step s₁ (.reader k) = .next s₂)
    (hrun : run s₂ (σa ++ .reader k :: σb) = some s₃)
    (ha : σa.count (.reader k) = 2)
    (hb : σb.count (.reader k) ≤ 1) :
    s₁.data.length = writerReturns init σ₁ ∧
    s₂.data = s₁.data ∧
    (∀ σ m, σ <+: σa ++ .reader k :: σb → run s₂ σ = some m →
      m.data = s₁.data ∧ ∃ q, m.readers[k]? = some q ∧ q.pc.holds = true) ∧
    (∃ m m' rc, run s₂ σa = some m ∧ step m (.reader k) = .next m' ∧
      m'.out = m.out ++ [.read k (writerReturns init σ₁) rc]) := by
  have hi₁ : Invariant s₁ := inv_of_reachable ⟨σ₁, h₁⟩
  have hi₂ : Invariant s₂ := inv_step hi₁ hlock
  have hlock' := (step_of_running hlock).2
  have hr₂ := stepReader_self hr hlock'
  simp only [hpc, ReaderPC.succ] at hr₂
  have hd₂ : s₂.data = s₁.data := stepReader_data hlock'
  have hwh := stepReader_rlock hr hpc hlock'
  have hret := writerReturns_eq h₁
  rw [hret]
  have hlen : s₁.data.length = s₁.writer.i := by
    have := congrArg List.length hi₁.wdata
    rw [expectedData_length] at this
    have hne : s₁.writer.pc ≠ .unlock := by
      intro e
      have := hi₁.held
      rw [hwh, e] at this
      simp [WriterPC.holds] at this
    simpa [hne] using this
  have hcount : (σa ++ .reader k :: σb).count (.reader k) ≤ 4 := by
    simp only [List.count_append, List.count_cons_self]
    omega
  refine ⟨hlen, hd₂, ?_, ?_⟩
  · intro σ m hpre hm
    have hc := hpre.count_le (Task.reader k)
    obtain ⟨hdata, q, hq, _, hqh, _, _⟩ :=
      run_while_holding hi₂ hr₂ rfl (by simp only [ReaderPC.remaining]; omega) hm
    exact ⟨by rw [hdata, hd₂], q, hq, hqh⟩
  · obtain ⟨m, hm, hrest⟩ := run_append_some hrun
    obtain ⟨m', hm', _⟩ := run_cons_some hrest
    obtain ⟨hdata, q, hq, hqid, _, hqpc, _⟩ :=
      run_while_holding hi₂ hr₂ rfl (by simp only [ReaderPC.remaining]; omega) hm
    simp only [ha, Function.iterate_succ, Function.iterate_zero, Function.comp_apply,
      ReaderPC.succ, id_eq] at hqpc
    have hout := stepReader_print hq hqpc (step_of_running hm').2
    have hid : q.id = k := by
      rw [hqid]
      exact hi₁.ids k r hr
    refine ⟨m, m', q.rc, hm, hm', ?_⟩
    rw [hout, hid, hdata, hd₂, hlen]

/-- C5 at a concrete reader cycle that starts after the first write. -/
theorem snapshot_consistency_witness :
    run init snapStart = some snapGrant ∧ step snapGrant (.reader 0) = .next snapHeld ∧
      writerReturns init snapStart = 1 ∧
      snapGrant.data.length = writerReturns init snapStart ∧ snapHeld.data = snapGrant.data :=
  have h := snapshot_consistency snapStart [.reader 0, .writer, .reader 0] [.writer] 0
    snapGrant snapHeld snapLate { id := 0, pc := .rlock, rc := 0 }
    (by decide) (by decide) rfl (by decide) (by decide) (by decide) (by decide)
  ⟨by decide, by decide, by decide, h.1, h.2.1⟩

/-- C6. Termination protocol: along every schedule the write goroutine runs
at most 71 statements; the calls it has begun are `writer(0)`, `writer(1)`,
... in this order, at most ten; it reaches `wg.Done()` only when exactly the
ten calls `writer(0)` ... `writer(9)` have been made and have returned;
`main` gets past `wg.Wait()` only after `wg.Done()`, and `Program Complete`
is in the output only then, with all ten strings stored; `main` is blocked
only in `wg.Wait()` while the writer has not finished, never on a reader;
and from every state a schedule exists that lets `main` print
`Program Complete` and return. -/
theorem termination_protocol (σ : List Task) (s : State) (h : run init σ = some s) :
    σ.count .writer ≤ 71 ∧
    (writerCalls init σ = List.range (callsBegun s.writer) ∧ callsBegun s.writer ≤ 10) ∧
    writerReturns init σ = s.writer.i ∧
    (s.writer.pc = .wgDone ∨ s.writer.pc = .exited →
      writerCalls init σ = [0, 1, 2, 3, 4, 5, 6, 7, 8, 9] ∧ writerReturns init σ = 10) ∧
    (s.mainPC = .printComplete ∨ s.mainPC = .ret ∨ s.mainPC = .exited →
      s.writer.pc = .exited) ∧
    (Line.complete ∈ s.out →
      (s.mainPC = .ret ∨ s.mainPC = .exited) ∧ s.writer.pc = .exited ∧
        writerReturns init σ = 10 ∧ s.data = expectedData 10) ∧
    Line.complete.render = "Program Complete" ∧
    (step s .main = .blocked ↔
      s.mainPC = .exited ∨ (s.mainPC = .wgWait ∧ s.writer.pc ≠ .exited)) ∧
    (∃ σ' s', run s σ' = some s' ∧ s'.mainPC = .exited ∧ Line.complete ∈ s'.out) := by
  have hi : Invariant s := inv_run inv_init h
  obtain ⟨hc, hr, hd⟩ := run_calls inv_init h
  have hc' : writerCalls init σ = List.range (callsBegun s.writer) := by
    simpa [init, callsBegun] using hc
  have hr' : writerReturns init σ = s.writer.i := writerReturns_eq h
  have hdone : s.writer.pc = .wgDone ∨ s.writer.pc = .exited →
      writerCalls init σ = [0, 1, 2, 3, 4, 5, 6, 7, 8, 9] ∧ writerReturns init σ = 10 := by
    intro hp
    have hi10 := hi.wend hp
    refine ⟨?_, by rw [hr', hi10]⟩
    rw [hc']
    have : callsBegun s.writer = 10 := by
      unfold callsBegun
      rcases hp with hp | hp <;> simp [hp, hi10]
    rw [this]
    decide
  refine ⟨?_, ⟨hc', callsBegun_le hi⟩, hr', hdone, hi.after, ?_, rfl, main_blocked_iff hi, ?_⟩
  · have : writerDist init.writer = 71 := rfl
    omega
  · intro hcomp
    have hm := hi.complete.mp hcomp
    have hw := hi.after (Or.inr hm)
    refine ⟨hm, hw, (hdone (Or.inr hw)).2, ?_⟩
    rw [hi.wdata, hi.wend (Or.inr hw), hw]
    simp
  · obtain ⟨σ', s', hrun, hex⟩ := can_complete (rank s) s hi (Nat.le_refl _)
    exact ⟨σ', s', hrun, hex, (inv_run hi hrun).complete.mpr (Or.inr hex)⟩

/-- C6 at a schedule that runs the program to completion. -/
theorem termination_protocol_witness :
    run init fullSchedule = some finalState ∧ finalState.mainPC = .exited ∧
      fullSchedule.count .writer ≤ 71 ∧ writerReturns init fullSchedule = finalState.writer.i :=
  have h := termination_protocol fullSchedule finalState (by decide)
  ⟨by decide, by decide, h.1, h.2.2.1⟩

/-- C7, as stated, fails: after `staleSchedule` reader 0 is about to print,
`readCount` is 2 in that state (the state in which `len(data)` is read), and
the line printed carries `Read Count[1]`. -/
theorem reader_count_not_current :
    ∃ m m' : State, run init staleSchedule = some m ∧ step m (.reader 0) = .next m' ∧
      m.readCount = 2 ∧ m'.out = m.out ++ [.read 0 m.data.length 1] ∧
      (Line.read 0 m.data.length 1).render = "0: Performing Read: Length[0] Read Count[1]" := by
  refine ⟨_, _, rfl, rfl, ?_, ?_, ?_⟩ <;> decide

/-- C7, amended. In every reader cycle the value printed as `Read Count[N]`
is the value returned by that cycle's own `atomic.AddInt64(&readCount, 1)`:
`readCount` in the state right after the increment, before the sleep.  It
lies between 1 and 8. -/
theorem reader_reports_increment_result (σ₁ σa : List Task) (k : Nat)
    (s₁ s₂ s₃ s₄ : State) (r : Reader)
    (h₁ : run init σ₁ = some s₁)
    (hr : s₁.readers[k]? = some r) (hpc : r.pc = .add)
    (hadd : step s₁ (.reader k) = .next s₂)
    (hrun : run s₂ σa = some s₃)
    (ha : σa.count (.reader k) = 1)
    (hprint : step s₃ (.reader k) = .next s₄) :
    s₂.readCount = s₁.readCount + 1 ∧
    (1 ≤ s₂.readCount ∧ s₂.readCount ≤ 8) ∧
    s₄.out = s₃.out ++ [.read k s₃.data.length s₂.readCount] := by
  have hi₁ : Invariant s₁ := inv_of_reachable ⟨σ₁, h₁⟩
  have hi₂ : Invariant s₂ := inv_step hi₁ hadd
  have hadd' := (step_of_running hadd).2
  have hr₂ := stepReader_self hr hadd'
  simp only [hpc, ReaderPC.succ, if_true] at hr₂
  have hrc := stepReader_readCount hi₁ hr hadd'
  simp only [hpc, ReaderPC.delta] at hrc
  have hval : atomicAddInt64 s₁.readCount 1 = s₂.readCount := by
    have hb := readCount_range hi₁
    rw [hrc]
    simp only [atomicAddInt64, int64]
    omega
  rw [hval] at hr₂
  have hbound := hi₂.rcs k _ hr₂ (Or.inl rfl)
  obtain ⟨_, q, hq, hqid, _, hqpc, hqrc⟩ :=
    run_while_holding hi₂ hr₂ rfl (by simp only [ReaderPC.remaining]; omega) hrun
  simp only [ha, Function.iterate_succ, Function.iterate_zero, Function.comp_apply,
    ReaderPC.succ, id_eq] at hqpc
  have hout := stepReader_print hq hqpc (step_of_running hprint).2
  have hid : q.id = k := by
    rw [hqid]
    exact hi₁.ids k r hr
  have hqrc' : q.rc = s₂.readCount := hqrc (by simp)
  refine ⟨hrc, hbound, ?_⟩
  rw [hout, hid, hqrc']

/-- C7 (amended) at the reader cycle of `staleSchedule`: reader 0 prints the
result of its own increment although `readCount` is 2 when it prints. -/
theorem reader_reports_increment_result_witness :
    run init [.main, .main, .main, .main, .reader 0] = some incrBefore ∧
      incrPrint.readCount = 2 ∧
      incrAfter.readCount = incrBefore.readCount + 1 ∧
      incrPrinted.out
        = incrPrint.out ++ [.read 0 incrPrint.data.length incrAfter.readCount] :=
  have h := reader_reports_increment_result [.main, .main, .main, .main, .reader 0]
    [.reader 1, .reader 1, .reader 0] 0 incrBefore incrAfter incrPrint incrPrinted
    { id := 0, pc := .add, rc := 0 }
    (by decide) (by decide) rfl (by decide) (by decide) (by decide) (by decide)
  ⟨by decide, by decide, h.1, h.2.2⟩

/-- C8. Store contents: the append statement of `writer(i)` puts
`"String: <i>"` after the elements already stored; from the state in which
`writer(i)` is about to lock to any later state in which that call has
returned and the next one has not yet appended, `data` has gained exactly
that one last element; no step ever changes an element already stored; and
once the writer's loop is over `data` is `"String: 0"` to `"String: 9"` in
order. -/
theorem store_contents (s : State) (h : Reachable s) :
    (∀ s', s.writer.pc = .append → step s .writer = .next s' →
      s'.data = s.data ++ [sprintfString s.writer.i]) ∧
    (∀ σ s', s.writer.pc = .lock → run s σ = some s' →
      s'.writer.i = s.writer.i + 1 → s'.writer.pc ≠ .unlock →
      s'.data = s.data ++ [sprintfString s.writer.i]) ∧
    (∀ t s', step s t = .next s' → s.data <+: s'.data) ∧
    (s.writer.pc = .wgDone ∨ s.writer.pc = .exited →
      s.data = ["String: 0", "String: 1", "String: 2", "String: 3", "String: 4",
                "String: 5", "String: 6", "String: 7", "String: 8", "String: 9"]) := by
  have hi := inv_of_reachable h
  refine ⟨?_, ?_, ?_, ?_⟩
  · intro s' hpc hs
    exact stepWriter_append hpc (step_of_running hs).2
  · intro σ s' hpc hrun hi' hne
    have hi₂ := inv_run hi hrun
    rw [hi₂.wdata, hi.wdata, hi', hpc]
    simp only [hne, if_false, Nat.add_zero, reduceCtorEq]
    exact expectedData_succ _
  · intro t s' hs
    exact step_data_extends hs
  · intro hd
    rw [hi.wdata, hi.wend hd]
    rcases hd with hd | hd <;> rw [hd] <;> decide

/-- C8 at the final state of a complete run. -/
theorem store_contents_witness :
    Reachable finalState ∧
      finalState.data = ["String: 0", "String: 1", "String: 2", "String: 3", "String: 4",
                         "String: 5", "String: 6", "String: 7", "String: 8", "String: 9"] :=
  have hr : Reachable finalState := ⟨fullSchedule, by decide⟩
  ⟨hr, (store_contents finalState hr).2.2.2 (Or.inr (by decide))⟩

/-- C9. No lost counter update: in every reachable state `readCount` is the
number of readers that have run their `AddInt64(&readCount, 1)` and not yet
their `AddInt64(&readCount, -1)`; it is zero when no reader holds shared mode;
a reader statement changes it by exactly `+1` (the increment), `-1` (the
decrement) or `0`, so the six statements of a cycle add up to zero; steps of
`main` and of the writer leave it unchanged. -/
theorem readCount_exact (s : State) (h : Reachable s) :
    s.readCount = (numCounted s.readers : Int) ∧
    (s.rwMutex.readerCount = 0 → s.readCount = 0) ∧
    (∀ (k : Nat) (r : Reader) (s' : State), s.readers[k]? = some r →
      step s (.reader k) = .next s' → s'.readCount = s.readCount + r.pc.delta) ∧
    (∀ s', step s .main = .next s' → s'.readCount = s.readCount) ∧
    (∀ s', step s .writer = .next s' → s'.readCount = s.readCount) ∧
    ReaderPC.rlock.delta + ReaderPC.add.delta + ReaderPC.sleep.delta + ReaderPC.print.delta
      + ReaderPC.dec.delta + ReaderPC.runlock.delta = 0 := by
  have hi := inv_of_reachable h
  refine ⟨hi.counter, ?_, ?_, ?_, ?_, by decide⟩
  · intro h0
    have := numCounted_le_numHolding s.readers
    rw [hi.rcount] at h0
    rw [hi.counter]
    omega
  · intro k r s' hr hs
    exact stepReader_readCount hi hr (step_of_running hs).2
  · intro s' hs
    exact (stepMain_data (step_of_running hs).2).2
  · intro s' hs
    exact (stepWriter_data (step_of_running hs).2).2

/-- C9 at a concrete state with two readers between increment and decrement. -/
theorem readCount_exact_witness :
    Reachable contendedState ∧ numCounted contendedState.readers = 2 ∧
      contendedState.readCount = (numCounted contendedState.readers : Int) :=
  have hr : Reachable contendedState := ⟨contendedSchedule, by decide⟩
  ⟨hr, by decide, (readCount_exact contendedState hr).1⟩

/-- C10. The writer always observes zero readers: in every reachable state in
which the writer holds the gate `readCount = 0`, so the `LoadInt64` in
`writer` stores `0` in `rc`, the `Printf` of `writer` prints the line with
`Read Count[0]`, and every writer line in the output is exactly
`----> Performing write: Read Count[0]`. -/
theorem writer_observes_zero (s : State) (h : Reachable s) :
    (s.writer.pc.holds = true → s.readCount = 0) ∧
    (∀ s', s.writer.pc = .load → step s .writer = .next s' → s'.writer.rc = 0) ∧
    (∀ s', s.writer.pc = .print → step s .writer = .next s' → s'.out = s.out ++ [.write 0]) ∧
    (∀ rc, Line.write rc ∈ s.out →
      (Line.write rc).render = "----> Performing write: Read Count[0]") := by
  have hi := inv_of_reachable h
  have hz : s.writer.pc.holds = true → s.readCount = 0 := by
    intro hw
    have h0 := hi.excl (by rw [hi.held]; exact hw)
    have := numCounted_le_numHolding s.readers
    rw [hi.rcount] at h0
    rw [hi.counter]
    omega
  refine ⟨hz, ?_, ?_, ?_⟩
  · intro s' hpc hs
    rw [stepWriter_load hpc (step_of_running hs).2]
    exact hz (by rw [hpc]; rfl)
  · intro s' hpc hs
    rw [stepWriter_print hpc (step_of_running hs).2, hi.wrc hpc]
  · intro rc hrc
    rw [hi.wlines rc hrc]
    rfl

/-- C10 at the final state of a complete run: ten writer lines, all with zero. -/
theorem writer_observes_zero_witness :
    Reachable finalState ∧ Line.write 0 ∈ finalState.out ∧
      ∀ rc, Line.write rc ∈ finalState.out →
        (Line.write rc).render = "----> Performing write: Read Count[0]" :=
  have hr : Reachable finalState := ⟨fullSchedule, by decide⟩
  ⟨hr, by decide, (writer_observes_zero finalState hr).2.2.2⟩

end Example5
